import Mathlib

/-!
Verification of the `trimElementTextToCharLimit` routine from
`scripts/utils.js`: a depth-first walk over a DOM-like tree that truncates
text content and prunes nodes once a global character budget is exhausted.

JS strings are modelled as lists of characters (`List Char`): `length`
is `List.length` and `slice(0, k)` is `List.take k`.
-/

/-- The character class of the JavaScript regex `\s` (whitespace). -/
def jsIsSpace (c : Char) : Bool :=
  c = ' ' || c = '\t' || c = '\n' || c = '\r' || c = '\x0b' || c = '\x0c' ||
  c = '\u00a0' || c = '\u1680' || ('\u2000' ≤ c && c ≤ '\u200a') ||
  c = '\u2028' || c = '\u2029' || c = '\u202f' || c = '\u205f' ||
  c = '\u3000' || c = '\ufeff'

/-- `/\S/.test(s)`: does the string contain a non-whitespace character? -/
def hasNonSpace (s : List Char) : Bool :=
  s.any fun c => !jsIsSpace c

/-- A DOM-like tree: a node is either a text node holding a string payload,
or an element node with a tag name, attributes, and an ordered list of
child nodes. -/
inductive DomNode where
  | text (content : List Char)
  | element (tag : String) (attrs : List (String × String)) (children : List DomNode)
deriving Repr

mutual
/-- Decidable equality for `DomNode`, by mutual recursion with the child lists. -/
def DomNode.decEq : (a b : DomNode) → Decidable (a = b)
  | .text s, .text t =>
    if h : s = t then isTrue (by rw [h])
    else isFalse (by simp only [DomNode.text.injEq]; exact h)
  | .text _, .element _ _ _ => isFalse (by simp)
  | .element _ _ _, .text _ => isFalse (by simp)
  | .element ta aa ca, .element tb ab cb =>
    if h1 : ta = tb then
      if h2 : aa = ab then
        match DomNode.decEqList ca cb with
        | isTrue h3 => isTrue (by rw [h1, h2, h3])
        | isFalse h3 => isFalse (by simp only [DomNode.element.injEq]; tauto)
      else isFalse (by simp only [DomNode.element.injEq]; tauto)
    else isFalse (by simp only [DomNode.element.injEq]; tauto)

/-- Decidable equality for lists of `DomNode`s. -/
def DomNode.decEqList : (as bs : List DomNode) → Decidable (as = bs)
  | [], [] => isTrue rfl
  | _ :: _, [] => isFalse (by simp)
  | [], _ :: _ => isFalse (by simp)
  | a :: as, b :: bs =>
    match DomNode.decEq a b, DomNode.decEqList as bs with
    | isTrue h1, isTrue h2 => isTrue (by rw [h1, h2])
    | isFalse h1, _ => isFalse (by simp only [List.cons.injEq]; tauto)
    | _, isFalse h2 => isFalse (by simp only [List.cons.injEq]; tauto)
end

instance : DecidableEq DomNode := DomNode.decEq

mutual
/-- One call of the inner `trimNode(node)` closure of
`trimElementTextToCharLimit`, with the shared mutable counter `count` made
explicit. The JS mutates the tree in place; here the result is the trimmed
node (`none` when the node called `remove()` on itself) together with the
updated counter. -/
def trimNode (limit count : Nat) (node : DomNode) : Option DomNode × Nat :=
  if count ≥ limit then
    (none, count)
  else
    match node with
    | .text content =>
      let text := if hasNonSpace content then content else []
      let newContent := if count + text.length > limit then text.take (limit - count) else content
      (some (.text newContent), count + text.length)
    | .element tag attrs children =>
      let r := trimChildren limit count children
      (some (.element tag attrs r.1), r.2)
termination_by structural node

/-- The `children.some((child, index) => …)` loop of `trimNode` over the
snapshot of the child list: visits children in order, and once the counter
reaches the limit removes every remaining sibling. -/
def trimChildren (limit count : Nat) (cs : List DomNode) : List DomNode × Nat :=
  match cs with
  | [] => ([], count)
  | c :: rest =>
    if count ≥ limit then
      (c :: rest, count)
    else
      let r := trimNode limit count c
      if r.2 ≥ limit then
        (r.1.toList, r.2)
      else
        let r2 := trimChildren limit r.2 rest
        (r.1.toList ++ r2.1, r2.2)
termination_by structural cs
end

/-- `trimElementTextToCharLimit(root, limit)`: run `trimNode` on the root
with the counter starting at 0. The result is the tree that remains
(`none` when the root itself was removed). -/
def trimElementTextToCharLimit (root : DomNode) (limit : Nat) : Option DomNode :=
  (trimNode limit 0 root).1

/-- Calling the routine as JavaScript would with a possibly-`null` root:
`trimNode(null)` dereferences `null` (`node.remove()` when `limit = 0`,
`node.nodeType` otherwise), which throws a `TypeError`; an actual node is
processed normally. -/
def trimElementTextToCharLimitNullable (root : Option DomNode) (limit : Nat) :
    Except String (Option DomNode) :=
  match root with
  | none => .error "TypeError"
  | some r => .ok (trimElementTextToCharLimit r limit)

/-- Effective length of a text payload for budgeting purposes: its length
if it contains a non-whitespace character, else `0`. -/
def effectiveLength (s : List Char) : Nat :=
  if hasNonSpace s then s.length else 0

mutual
/-- Sum of the effective lengths of all text nodes of a tree. -/
def sumEffectiveLength : DomNode → Nat
  | .text s => effectiveLength s
  | .element _ _ cs => sumEffectiveLengthList cs

/-- Sum of the effective lengths of all text nodes of a forest. -/
def sumEffectiveLengthList : List DomNode → Nat
  | [] => 0
  | c :: rest => sumEffectiveLength c + sumEffectiveLengthList rest
end

/-- Sum of effective lengths of an optional tree (`0` for a removed tree). -/
def sumEffectiveLengthOpt : Option DomNode → Nat
  | none => 0
  | some n => sumEffectiveLength n

mutual
/-- Sum of the raw content lengths of all text nodes of a tree. -/
def totalTextLength : DomNode → Nat
  | .text s => s.length
  | .element _ _ cs => totalTextLengthList cs

/-- Sum of the raw content lengths of all text nodes of a forest. -/
def totalTextLengthList : List DomNode → Nat
  | [] => 0
  | c :: rest => totalTextLength c + totalTextLengthList rest
end

/-- Sum of raw content lengths of an optional tree (`0` for a removed tree). -/
def totalTextLengthOpt : Option DomNode → Nat
  | none => 0
  | some n => totalTextLength n

mutual
/-- The contents of the text nodes of a tree, in document order. -/
def textContents : DomNode → List (List Char)
  | .text s => [s]
  | .element _ _ cs => textContentsList cs

/-- The contents of the text nodes of a forest, in document order. -/
def textContentsList : List DomNode → List (List Char)
  | [] => []
  | c :: rest => textContents c ++ textContentsList rest
end

mutual
/-- The number of nodes of a tree. -/
def nodeCount : DomNode → Nat
  | .text _ => 1
  | .element _ _ cs => 1 + nodeCountList cs

/-- The number of nodes of a forest. -/
def nodeCountList : List DomNode → Nat
  | [] => 0
  | c :: rest => nodeCount c + nodeCountList rest
end

/-- The number of nodes of an optional tree (`0` for a removed tree). -/
def nodeCountOpt : Option DomNode → Nat
  | none => 0
  | some n => nodeCount n

mutual
/-- Does every text node of the tree consist of whitespace only? -/
def allWhitespace : DomNode → Bool
  | .text s => !hasNonSpace s
  | .element _ _ cs => allWhitespaceList cs

/-- Does every text node of the forest consist of whitespace only? -/
def allWhitespaceList : List DomNode → Bool
  | [] => true
  | c :: rest => allWhitespace c && allWhitespaceList rest
end

mutual
/-- `IsTrimOf n' n` holds when `n'` arises from `n` by keeping the node
kind, tag name and attributes of every retained node, replacing each
retained text payload by one of its prefixes, and retaining only an
initial segment of each child list (each retained child recursively so
related). Exactly the mutations available to the trimming walk: detaching
nodes and shortening text. -/
inductive IsTrimOf : DomNode → DomNode → Prop where
  | text : ∀ s' s : List Char, List.IsPrefix s' s →
      IsTrimOf (.text s') (.text s)
  | element : ∀ tag attrs cs' cs, IsTrimOfList cs' cs →
      IsTrimOf (.element tag attrs cs') (.element tag attrs cs)

/-- `IsTrimOfList cs' cs`: the forest `cs'` retains an initial segment of
the forest `cs`, each retained tree trimmed from the corresponding one. -/
inductive IsTrimOfList : List DomNode → List DomNode → Prop where
  | nil : ∀ cs, IsTrimOfList [] cs
  | cons : ∀ c' c cs' cs, IsTrimOf c' c → IsTrimOfList cs' cs →
      IsTrimOfList (c' :: cs') (c :: cs)
end

/-! ### Basic lemmas about the measures -/

theorem effectiveLength_le_length (s : List Char) : effectiveLength s ≤ s.length := by
  unfold effectiveLength
  split <;> simp

theorem effectiveLength_of_hasNonSpace (s : List Char) (h : hasNonSpace s = true) :
    effectiveLength s = s.length := by
  simp [effectiveLength, h]

theorem effectiveLength_of_not_hasNonSpace (s : List Char) (h : hasNonSpace s = false) :
    effectiveLength s = 0 := by
  simp [effectiveLength, h]

theorem sumEffectiveLengthList_append (a b : List DomNode) :
    sumEffectiveLengthList (a ++ b) =
      sumEffectiveLengthList a + sumEffectiveLengthList b := by
  induction a with
  | nil => simp [sumEffectiveLengthList]
  | cons c rest ih => simp [sumEffectiveLengthList, ih]; omega

theorem sumEffectiveLengthList_toList (o : Option DomNode) :
    sumEffectiveLengthList o.toList = sumEffectiveLengthOpt o := by
  cases o <;> simp [sumEffectiveLengthList, sumEffectiveLengthOpt]

theorem nodeCountList_append (a b : List DomNode) :
    nodeCountList (a ++ b) = nodeCountList a + nodeCountList b := by
  induction a with
  | nil => simp [nodeCountList]
  | cons c rest ih => simp [nodeCountList, ih]; omega

theorem nodeCountList_toList (o : Option DomNode) :
    nodeCountList o.toList = nodeCountOpt o := by
  cases o <;> simp [nodeCountList, nodeCountOpt, nodeCount]

theorem textContentsList_append (a b : List DomNode) :
    textContentsList (a ++ b) = textContentsList a ++ textContentsList b := by
  induction a with
  | nil => simp [textContentsList]
  | cons c rest ih => simp [textContentsList, ih]

/-! ### Shape lemmas: one per control-flow branch of the walk -/

theorem trimNode_of_reached (limit count : Nat) (n : DomNode) (h : limit ≤ count) :
    trimNode limit count n = (none, count) := by
  unfold trimNode
  rw [if_pos h]

theorem trimNode_text_fit (limit count : Nat) (s : List Char)
    (h : count < limit) (hfit : count + effectiveLength s ≤ limit) :
    trimNode limit count (DomNode.text s) = (some (.text s), count + effectiveLength s) := by
  unfold trimNode
  rw [if_neg (by omega)]
  by_cases hs : hasNonSpace s
  · rw [effectiveLength_of_hasNonSpace s hs] at hfit ⊢
    simp only [hs, if_true]
    rw [if_neg (by omega)]
  · rw [effectiveLength_of_not_hasNonSpace s (by simpa using hs)] at hfit ⊢
    simp only [hs]
    rw [if_neg (by simp; omega)]
    simp

theorem trimNode_text_overflow (limit count : Nat) (s : List Char)
    (h : count < limit) (hover : limit < count + effectiveLength s) :
    trimNode limit count (DomNode.text s) =
      (some (.text (s.take (limit - count))), count + effectiveLength s) := by
  have hs : hasNonSpace s = true := by
    by_contra hs
    rw [effectiveLength_of_not_hasNonSpace s (by simpa using hs)] at hover
    omega
  unfold trimNode
  rw [if_neg (by omega)]
  rw [effectiveLength_of_hasNonSpace s hs] at hover ⊢
  simp only [hs, if_true]
  rw [if_pos (by omega)]

theorem trimNode_element (limit count : Nat) (tag : String)
    (attrs : List (String × String)) (cs : List DomNode) (h : count < limit) :
    trimNode limit count (DomNode.element tag attrs cs) =
      (some (.element tag attrs (trimChildren limit count cs).1),
        (trimChildren limit count cs).2) := by
  unfold trimNode
  rw [if_neg (by omega)]

theorem trimChildren_nil (limit count : Nat) : trimChildren limit count [] = ([], count) := by
  unfold trimChildren
  rfl

theorem trimChildren_cons_stop (limit count : Nat) (c : DomNode) (rest : List DomNode)
    (h : limit ≤ count) : trimChildren limit count (c :: rest) = (c :: rest, count) := by
  unfold trimChildren
  rw [if_pos h]

theorem trimChildren_cons_reached (limit count : Nat) (c : DomNode) (rest : List DomNode)
    (h : count < limit) (hr : limit ≤ (trimNode limit count c).2) :
    trimChildren limit count (c :: rest) =
      ((trimNode limit count c).1.toList, (trimNode limit count c).2) := by
  unfold trimChildren
  rw [if_neg (by omega)]
  simp only []
  rw [if_pos hr]

theorem trimChildren_cons_continue (limit count : Nat) (c : DomNode) (rest : List DomNode)
    (h : count < limit) (hr : (trimNode limit count c).2 < limit) :
    trimChildren limit count (c :: rest) =
      ((trimNode limit count c).1.toList ++
          (trimChildren limit (trimNode limit count c).2 rest).1,
        (trimChildren limit (trimNode limit count c).2 rest).2) := by
  have h1 : ¬ count ≥ limit := by omega
  have h2 : ¬ (trimNode limit count c).2 ≥ limit := by omega
  cases rest with
  | nil => simp [trimChildren, h1, h2]
  | cons d ds => simp [trimChildren, h1, h2]

/-- Below the limit, the walk never removes the node it was called on:
the `node.remove()` branch fires only when the budget is already spent. -/
theorem trimNode_isSome (limit count : Nat) (n : DomNode) (h : count < limit) :
    ∃ n', (trimNode limit count n).1 = some n' := by
  cases n with
  | text s =>
    by_cases hfit : count + effectiveLength s ≤ limit
    · rw [trimNode_text_fit limit count s h hfit]; exact ⟨_, rfl⟩
    · rw [trimNode_text_overflow limit count s h (by omega)]; exact ⟨_, rfl⟩
  | element tag attrs cs =>
    rw [trimNode_element limit count tag attrs cs h]; exact ⟨_, rfl⟩

/-! ### The counter never decreases -/

mutual
theorem trimNode_count_le (limit count : Nat) (n : DomNode) :
    count ≤ (trimNode limit count n).2 := by
  by_cases h : limit ≤ count
  · rw [trimNode_of_reached limit count n h]
  · cases n with
    | text s =>
      by_cases hfit : count + effectiveLength s ≤ limit
      · rw [trimNode_text_fit limit count s (by omega) hfit]; dsimp only; omega
      · rw [trimNode_text_overflow limit count s (by omega) (by omega)]; dsimp only; omega
    | element tag attrs cs =>
      rw [trimNode_element limit count tag attrs cs (by omega)]
      exact trimChildren_count_le limit count cs

theorem trimChildren_count_le (limit count : Nat) (cs : List DomNode) :
    count ≤ (trimChildren limit count cs).2 := by
  cases cs with
  | nil => rw [trimChildren_nil]
  | cons c rest =>
    by_cases h : limit ≤ count
    · rw [trimChildren_cons_stop limit count c rest h]
    · by_cases hr : limit ≤ (trimNode limit count c).2
      · rw [trimChildren_cons_reached limit count c rest (by omega) hr]
        exact trimNode_count_le limit count c
      · rw [trimChildren_cons_continue limit count c rest (by omega) (by omega)]
        have h1 := trimNode_count_le limit count c
        have h2 := trimChildren_count_le limit (trimNode limit count c).2 rest
        dsimp only
        omega
end

/-! ### The budget invariant: retained effective text never exceeds the
remaining budget, nor the amount the counter advanced -/

mutual
theorem trimNode_budget (limit count : Nat) (n : DomNode) (h : count < limit) :
    sumEffectiveLengthOpt (trimNode limit count n).1 + count ≤ limit ∧
    sumEffectiveLengthOpt (trimNode limit count n).1 + count ≤ (trimNode limit count n).2 := by
  cases n with
  | text s =>
    by_cases hfit : count + effectiveLength s ≤ limit
    · rw [trimNode_text_fit limit count s h hfit]
      simp only [sumEffectiveLengthOpt, sumEffectiveLength]
      omega
    · rw [trimNode_text_overflow limit count s h (by omega)]
      simp only [sumEffectiveLengthOpt, sumEffectiveLength]
      have e1 : effectiveLength (s.take (limit - count)) ≤ (s.take (limit - count)).length :=
        effectiveLength_le_length _
      have e2 : (s.take (limit - count)).length ≤ limit - count := by
        simp
      omega
  | element tag attrs cs =>
    rw [trimNode_element limit count tag attrs cs h]
    simp only [sumEffectiveLengthOpt, sumEffectiveLength]
    exact trimChildren_budget limit count cs h

theorem trimChildren_budget (limit count : Nat) (cs : List DomNode) (h : count < limit) :
    sumEffectiveLengthList (trimChildren limit count cs).1 + count ≤ limit ∧
    sumEffectiveLengthList (trimChildren limit count cs).1 + count ≤
      (trimChildren limit count cs).2 := by
  cases cs with
  | nil =>
    rw [trimChildren_nil]
    simp only [sumEffectiveLengthList]
    omega
  | cons c rest =>
    by_cases hr : limit ≤ (trimNode limit count c).2
    · rw [trimChildren_cons_reached limit count c rest h hr]
      dsimp only
      rw [sumEffectiveLengthList_toList]
      exact trimNode_budget limit count c h
    · rw [trimChildren_cons_continue limit count c rest h (by omega)]
      dsimp only
      rw [sumEffectiveLengthList_append, sumEffectiveLengthList_toList]
      have hb := trimNode_budget limit count c h
      have hm := trimNode_count_le limit count c
      have hrec := trimChildren_budget limit (trimNode limit count c).2 rest (by omega)
      omega
end

/-! ### Strictly under-budget trees pass through unchanged -/

mutual
theorem trimNode_noop (limit count : Nat) (n : DomNode)
    (h : count + sumEffectiveLength n < limit) :
    trimNode limit count n = (some n, count + sumEffectiveLength n) := by
  cases n with
  | text s =>
    simp only [sumEffectiveLength] at h ⊢
    rw [trimNode_text_fit limit count s (by omega) (by omega)]
  | element tag attrs cs =>
    simp only [sumEffectiveLength] at h ⊢
    rw [trimNode_element limit count tag attrs cs (by omega)]
    rw [trimChildren_noop limit count cs h]

theorem trimChildren_noop (limit count : Nat) (cs : List DomNode)
    (h : count + sumEffectiveLengthList cs < limit) :
    trimChildren limit count cs = (cs, count + sumEffectiveLengthList cs) := by
  cases cs with
  | nil =>
    rw [trimChildren_nil]
    simp [sumEffectiveLengthList]
  | cons c rest =>
    simp only [sumEffectiveLengthList] at h ⊢
    have hc := trimNode_noop limit count c (by omega)
    rw [trimChildren_cons_continue limit count c rest (by omega) (by rw [hc]; dsimp only; omega)]
    rw [hc]
    dsimp only
    rw [trimChildren_noop limit (count + sumEffectiveLength c) rest (by omega)]
    simp only [Option.toList_some, List.singleton_append, Prod.mk.injEq]
    exact ⟨by trivial, by omega⟩
end

/-! ### Structure preservation: the result is a trim of the input -/

mutual
theorem trimNode_isTrimOf (limit count : Nat) (n : DomNode) (h : count < limit) :
    ∀ n', (trimNode limit count n).1 = some n' → IsTrimOf n' n := by
  cases n with
  | text s =>
    intro n' hn'
    by_cases hfit : count + effectiveLength s ≤ limit
    · rw [trimNode_text_fit limit count s h hfit] at hn'
      dsimp only at hn'
      cases hn'
      exact IsTrimOf.text s s List.prefix_rfl
    · rw [trimNode_text_overflow limit count s h (by omega)] at hn'
      dsimp only at hn'
      cases hn'
      exact IsTrimOf.text _ s (List.take_prefix _ s)
  | element tag attrs cs =>
    intro n' hn'
    rw [trimNode_element limit count tag attrs cs h] at hn'
    dsimp only at hn'
    cases hn'
    exact IsTrimOf.element tag attrs _ cs (trimChildren_isTrimOfList limit count cs h)

theorem trimChildren_isTrimOfList (limit count : Nat) (cs : List DomNode) (h : count < limit) :
    IsTrimOfList (trimChildren limit count cs).1 cs := by
  cases cs with
  | nil =>
    rw [trimChildren_nil]
    exact IsTrimOfList.nil []
  | cons c rest =>
    by_cases hr : limit ≤ (trimNode limit count c).2
    · rw [trimChildren_cons_reached limit count c rest h hr]
      dsimp only
      obtain ⟨c', hc'⟩ := trimNode_isSome limit count c h
      rw [hc']
      simp only [Option.toList_some]
      exact IsTrimOfList.cons c' c [] rest (trimNode_isTrimOf limit count c h c' hc')
        (IsTrimOfList.nil rest)
    · rw [trimChildren_cons_continue limit count c rest h (by omega)]
      dsimp only
      obtain ⟨c', hc'⟩ := trimNode_isSome limit count c h
      rw [hc']
      simp only [Option.toList_some, List.singleton_append]
      exact IsTrimOfList.cons c' c _ rest (trimNode_isTrimOf limit count c h c' hc')
        (trimChildren_isTrimOfList limit (trimNode limit count c).2 rest (by omega))
end

/-! ### The walk never duplicates or invents nodes -/

mutual
theorem trimNode_nodeCount_le (limit count : Nat) (n : DomNode) :
    nodeCountOpt (trimNode limit count n).1 ≤ nodeCount n := by
  by_cases h : limit ≤ count
  · rw [trimNode_of_reached limit count n h]
    simp [nodeCountOpt]
  · cases n with
    | text s =>
      by_cases hfit : count + effectiveLength s ≤ limit
      · rw [trimNode_text_fit limit count s (by omega) hfit]
        simp [nodeCountOpt, nodeCount]
      · rw [trimNode_text_overflow limit count s (by omega) (by omega)]
        simp [nodeCountOpt, nodeCount]
    | element tag attrs cs =>
      rw [trimNode_element limit count tag attrs cs (by omega)]
      simp only [nodeCountOpt, nodeCount]
      have := trimChildren_nodeCount_le limit count cs
      omega

theorem trimChildren_nodeCount_le (limit count : Nat) (cs : List DomNode) :
    nodeCountList (trimChildren limit count cs).1 ≤ nodeCountList cs := by
  cases cs with
  | nil => rw [trimChildren_nil]
  | cons c rest =>
    by_cases h : limit ≤ count
    · rw [trimChildren_cons_stop limit count c rest h]
    · by_cases hr : limit ≤ (trimNode limit count c).2
      · rw [trimChildren_cons_reached limit count c rest (by omega) hr]
        dsimp only
        rw [nodeCountList_toList]
        have := trimNode_nodeCount_le limit count c
        simp only [nodeCountList]
        omega
      · rw [trimChildren_cons_continue limit count c rest (by omega) (by omega)]
        dsimp only
        rw [nodeCountList_append, nodeCountList_toList]
        have h1 := trimNode_nodeCount_le limit count c
        have h2 := trimChildren_nodeCount_le limit (trimNode limit count c).2 rest
        simp only [nodeCountList]
        omega
end

/-! ### Retained text contents pair up, in order, with prefixes of
original text contents -/

mutual
theorem trimNode_texts (limit count : Nat) (n : DomNode) (h : count < limit) :
    ∀ n', (trimNode limit count n).1 = some n' →
      ∃ l, List.Sublist l (textContents n) ∧
        List.Forall₂ List.IsPrefix (textContents n') l := by
  cases n with
  | text s =>
    intro n' hn'
    by_cases hfit : count + effectiveLength s ≤ limit
    · rw [trimNode_text_fit limit count s h hfit] at hn'
      dsimp only at hn'
      cases hn'
      exact ⟨[s], List.Sublist.refl [s],
        List.Forall₂.cons List.prefix_rfl List.Forall₂.nil⟩
    · rw [trimNode_text_overflow limit count s h (by omega)] at hn'
      dsimp only at hn'
      cases hn'
      exact ⟨[s], List.Sublist.refl [s],
        List.Forall₂.cons (List.take_prefix _ s) List.Forall₂.nil⟩
  | element tag attrs cs =>
    intro n' hn'
    rw [trimNode_element limit count tag attrs cs h] at hn'
    dsimp only at hn'
    cases hn'
    simp only [textContents]
    exact trimChildren_texts limit count cs h

theorem trimChildren_texts (limit count : Nat) (cs : List DomNode) (h : count < limit) :
    ∃ l, List.Sublist l (textContentsList cs) ∧
      List.Forall₂ List.IsPrefix (textContentsList (trimChildren limit count cs).1) l := by
  cases cs with
  | nil =>
    rw [trimChildren_nil]
    exact ⟨[], List.nil_sublist [], List.Forall₂.nil⟩
  | cons c rest =>
    obtain ⟨c', hc'⟩ := trimNode_isSome limit count c h
    obtain ⟨l₁, hs₁, hf₁⟩ := trimNode_texts limit count c h c' hc'
    by_cases hr : limit ≤ (trimNode limit count c).2
    · rw [trimChildren_cons_reached limit count c rest h hr]
      dsimp only
      rw [hc']
      simp only [Option.toList_some, textContentsList, List.append_nil]
      exact ⟨l₁, List.Sublist.trans hs₁ (List.sublist_append_left _ _),
        by simpa using hf₁⟩
    · rw [trimChildren_cons_continue limit count c rest h (by omega)]
      dsimp only
      rw [hc']
      obtain ⟨l₂, hs₂, hf₂⟩ :=
        trimChildren_texts limit (trimNode limit count c).2 rest (by omega)
      refine ⟨l₁ ++ l₂, ?_, ?_⟩
      · simp only [textContentsList]
        exact List.Sublist.append hs₁ hs₂
      · simp only [Option.toList_some, List.singleton_append, textContentsList]
        exact List.rel_append hf₁ hf₂
end

/-! ### A whitespace-only tree has effective length zero -/

mutual
theorem sumEffectiveLength_of_allWhitespace (n : DomNode) (h : allWhitespace n = true) :
    sumEffectiveLength n = 0 := by
  cases n with
  | text s =>
    simp only [allWhitespace, Bool.not_eq_eq_eq_not, Bool.not_true] at h
    simp [sumEffectiveLength, effectiveLength, h]
  | element tag attrs cs =>
    simp only [allWhitespace] at h
    simp only [sumEffectiveLength]
    exact sumEffectiveLengthList_of_allWhitespaceList cs h

theorem sumEffectiveLengthList_of_allWhitespaceList (cs : List DomNode)
    (h : allWhitespaceList cs = true) : sumEffectiveLengthList cs = 0 := by
  cases cs with
  | nil => simp [sumEffectiveLengthList]
  | cons c rest =>
    simp only [allWhitespaceList, Bool.and_eq_true] at h
    simp only [sumEffectiveLengthList]
    rw [sumEffectiveLength_of_allWhitespace c h.1,
      sumEffectiveLengthList_of_allWhitespaceList rest h.2]
end

/-! ## The claims -/

/-- C1 counterexample: the claim as stated — the sum of the *content
lengths* of all retained text nodes is at most `limit` — fails. A
whitespace-only text node counts as zero toward the budget and is retained
untouched, so its raw content length survives: trimming
`<div>"␣␣"</div>` to limit 1 retains 2 characters of content. -/
theorem trim_budget_raw_counterexample :
    totalTextLengthOpt
        (trimElementTextToCharLimit
          (DomNode.element "div" [] [DomNode.text [' ', ' ']]) 1) = 2 ∧
    ¬ totalTextLengthOpt
        (trimElementTextToCharLimit
          (DomNode.element "div" [] [DomNode.text [' ', ' ']]) 1) ≤ 1 := by
  decide

/-- C1, amended: for every tree and every limit, after
`trimElementTextToCharLimit` the sum of the *effective* lengths of the
retained text nodes (raw length for text containing a non-whitespace
character, zero for whitespace-only text) is at most `limit`. -/
theorem trim_budget_effective (root : DomNode) (limit : Nat) :
    sumEffectiveLengthOpt (trimElementTextToCharLimit root limit) ≤ limit := by
  unfold trimElementTextToCharLimit
  by_cases h : 0 < limit
  · have := (trimNode_budget limit 0 root h).1
    omega
  · have h0 : limit = 0 := by omega
    subst h0
    rw [trimNode_of_reached 0 0 root (by omega)]
    simp [sumEffectiveLengthOpt]

/-- C2 counterexample: with `limit = 0` the very first `count >= limit`
check fires on the root, so `trimElementTextToCharLimit(root, 0)` calls
`root.remove()` unconditionally — even on a tree whose only text is
whitespace. The whitespace-only tree `<p>"␣␣␣"</p>` is removed, not left
unchanged. -/
theorem trim_whitespace_limit0_counterexample :
    allWhitespace (DomNode.element "p" [] [DomNode.text [' ', ' ', ' ']]) = true ∧
    trimElementTextToCharLimit
        (DomNode.element "p" [] [DomNode.text [' ', ' ', ' ']]) 0 = none := by
  decide

/-- C2, amended: a tree whose text nodes are all whitespace-only passes
through `trimElementTextToCharLimit` completely unchanged for every
`limit ≥ 1`; at `limit = 0` the root itself is removed before any of its
content is inspected. -/
theorem trim_whitespace_only_unchanged (root : DomNode) (limit : Nat)
    (hws : allWhitespace root = true) (hl : 1 ≤ limit) :
    trimElementTextToCharLimit root limit = some root := by
  unfold trimElementTextToCharLimit
  have h0 : sumEffectiveLength root = 0 := sumEffectiveLength_of_allWhitespace root hws
  rw [trimNode_noop limit 0 root (by omega)]

/-- Witness for C2's amended theorem at the whitespace tree `<p>"␣␣␣"</p>`
and `limit = 1`. -/
theorem trim_whitespace_only_unchanged_witness :
    allWhitespace (DomNode.element "p" [] [DomNode.text [' ', ' ', ' ']]) = true ∧
    1 ≤ 1 ∧
    trimElementTextToCharLimit
        (DomNode.element "p" [] [DomNode.text [' ', ' ', ' ']]) 1 =
      some (DomNode.element "p" [] [DomNode.text [' ', ' ', ' ']]) :=
  ⟨by decide, by decide,
    trim_whitespace_only_unchanged
      (DomNode.element "p" [] [DomNode.text [' ', ' ', ' ']]) 1 (by decide) (by decide)⟩

/-- C3: on `<div>AB<span>CD</span>EF</div>` with limit 3, the walk keeps
"AB" unchanged, keeps the span with its text truncated to "C", removes the
text node "EF" entirely, and the running counter ends at 4 (the full
length of "CD" is added even though only "C" is kept). -/
theorem trim_scenario_div_ab_span_cd_ef :
    trimElementTextToCharLimit
        (DomNode.element "div" [] [DomNode.text ['A', 'B'],
          DomNode.element "span" [] [DomNode.text ['C', 'D']],
          DomNode.text ['E', 'F']]) 3 =
      some (DomNode.element "div" [] [DomNode.text ['A', 'B'],
        DomNode.element "span" [] [DomNode.text ['C']]]) ∧
    (trimNode 3 0 (DomNode.element "div" [] [DomNode.text ['A', 'B'],
        DomNode.element "span" [] [DomNode.text ['C', 'D']],
        DomNode.text ['E', 'F']])).2 = 4 := by
  decide

/-- C4: when the walk processes a text node with `count < limit`, the
counter advances by the node's full original effective length — zero for
whitespace-only content, the entire original length otherwise — whether or
not the content was truncated, never by the number of characters kept. -/
theorem trimNode_text_counter_advance (limit count : Nat) (s : List Char)
    (h : count < limit) :
    (trimNode limit count (DomNode.text s)).2 = count + effectiveLength s := by
  by_cases hfit : count + effectiveLength s ≤ limit
  · rw [trimNode_text_fit limit count s h hfit]
  · rw [trimNode_text_overflow limit count s h (by omega)]

/-- Witness for C4 at a truncating text node: "WXYZ" with limit 3 keeps
only 3 characters, yet the counter advances by the full length 4. -/
theorem trimNode_text_counter_advance_witness :
    0 < 3 ∧ (trimNode 3 0 (DomNode.text ['W', 'X', 'Y', 'Z'])).2 =
      0 + effectiveLength ['W', 'X', 'Y', 'Z'] :=
  ⟨by decide, trimNode_text_counter_advance 3 0 ['W', 'X', 'Y', 'Z'] (by decide)⟩

/-- C5: a text node with a non-whitespace character, reached with
`count < limit` and overflowing the budget (`count + length > limit`), has
its content replaced by exactly the first `limit - count` characters of
the original content. -/
theorem trimNode_text_truncates_to_prefix (limit count : Nat) (s : List Char)
    (hs : hasNonSpace s = true) (h : count < limit)
    (hover : limit < count + s.length) :
    (trimNode limit count (DomNode.text s)).1 =
      some (DomNode.text (s.take (limit - count))) ∧
    (s.take (limit - count)).length = limit - count := by
  have he : effectiveLength s = s.length := effectiveLength_of_hasNonSpace s hs
  constructor
  · rw [trimNode_text_overflow limit count s h (by omega)]
  · simp only [List.length_take]
    omega

/-- Witness for C5 at the text node "CD" reached with count 2, limit 3:
the content becomes the 1-character prefix "C". -/
theorem trimNode_text_truncates_to_prefix_witness :
    hasNonSpace ['C', 'D'] = true ∧ 2 < 3 ∧
    3 < 2 + (['C', 'D'] : List Char).length ∧
    ((trimNode 3 2 (DomNode.text ['C', 'D'])).1 =
        some (DomNode.text ((['C', 'D'] : List Char).take (3 - 2))) ∧
      ((['C', 'D'] : List Char).take (3 - 2)).length = 3 - 2) :=
  ⟨by decide, by decide, by decide,
    trimNode_text_truncates_to_prefix 3 2 ['C', 'D'] (by decide) (by decide) (by decide)⟩

/-- C6 counterexample: `limit ≥ total effective text length` is not enough
for the call to be a no-op. On `<div>AB<span></span></div>` with
`limit = 2` (equal to the total effective length), consuming "AB" makes
`count = limit`, so the trailing empty `<span>` is removed. (At
`limit = 0` with an empty tree the root itself is removed, for the same
reason.) -/
theorem trim_noop_at_exact_limit_counterexample :
    sumEffectiveLength (DomNode.element "div" []
      [DomNode.text ['A', 'B'], DomNode.element "span" [] []]) = 2 ∧
    trimElementTextToCharLimit (DomNode.element "div" []
        [DomNode.text ['A', 'B'], DomNode.element "span" [] []]) 2 =
      some (DomNode.element "div" [] [DomNode.text ['A', 'B']]) ∧
    trimElementTextToCharLimit (DomNode.element "div" []
        [DomNode.text ['A', 'B'], DomNode.element "span" [] []]) 2 ≠
      some (DomNode.element "div" []
        [DomNode.text ['A', 'B'], DomNode.element "span" [] []]) := by
  decide

/-- C6, amended: if `limit` is *strictly* greater than the total effective
text length of the tree, `trimElementTextToCharLimit` changes neither the
tree's text content nor its structure. -/
theorem trim_noop_when_limit_exceeds_total (root : DomNode) (limit : Nat)
    (h : sumEffectiveLength root < limit) :
    trimElementTextToCharLimit root limit = some root := by
  unfold trimElementTextToCharLimit
  rw [trimNode_noop limit 0 root (by omega)]

/-- Witness for C6's amended theorem: `<div>AB</div>` with limit 5 is
returned unchanged. -/
theorem trim_noop_when_limit_exceeds_total_witness :
    sumEffectiveLength (DomNode.element "div" [] [DomNode.text ['A', 'B']]) < 5 ∧
    trimElementTextToCharLimit
        (DomNode.element "div" [] [DomNode.text ['A', 'B']]) 5 =
      some (DomNode.element "div" [] [DomNode.text ['A', 'B']]) :=
  ⟨by decide,
    trim_noop_when_limit_exceeds_total
      (DomNode.element "div" [] [DomNode.text ['A', 'B']]) 5 (by decide)⟩

/-- C7 counterexample: calling with `root = null` is not a no-op: the
first member access on `null` (`node.remove()` at `limit = 0`,
`node.nodeType` otherwise) throws a `TypeError`. -/
theorem trimNullable_null_counterexample :
    trimElementTextToCharLimitNullable none 0 = Except.error "TypeError" := rfl

/-- C7, amended: for every actual (non-null) tree and every limit the call
runs to completion and raises no exception; only `root = null` throws. -/
theorem trimNullable_ok_on_nodes (root : DomNode) (limit : Nat) :
    ∃ t, trimElementTextToCharLimitNullable (some root) limit = Except.ok t :=
  ⟨trimElementTextToCharLimit root limit, rfl⟩

/-- C8: the walk is a total function (it is defined here by structural
recursion on the tree, visiting each snapshot child once), and its result
never has more nodes than the input tree. -/
theorem trim_nodeCount_le (root : DomNode) (limit : Nat) :
    nodeCountOpt (trimElementTextToCharLimit root limit) ≤ nodeCount root := by
  unfold trimElementTextToCharLimit
  exact trimNode_nodeCount_le limit 0 root

/-- C9: the contents of the text nodes retained in the result pair up, in
document order, with a subsequence of the original text-node contents,
each retained content a prefix of its original — text is never reordered,
replaced, or extended. -/
theorem trim_texts_prefix_subsequence (root : DomNode) (limit : Nat) (t : DomNode)
    (h : trimElementTextToCharLimit root limit = some t) :
    ∃ l, List.Sublist l (textContents root) ∧
      List.Forall₂ List.IsPrefix (textContents t) l := by
  unfold trimElementTextToCharLimit at h
  by_cases hl : 0 < limit
  · exact trimNode_texts limit 0 root hl t h
  · have h0 : limit = 0 := by omega
    subst h0
    rw [trimNode_of_reached 0 0 root (by omega)] at h
    simp at h

/-- Witness for C9: trimming `<div>ABC</div>` to limit 2 keeps the single
text node with content "AB", a prefix of "ABC". -/
theorem trim_texts_prefix_subsequence_witness :
    ∃ l, List.Sublist l
        (textContents (DomNode.element "div" [] [DomNode.text ['A', 'B', 'C']])) ∧
      List.Forall₂ List.IsPrefix
        (textContents (DomNode.element "div" [] [DomNode.text ['A', 'B']])) l :=
  trim_texts_prefix_subsequence
    (DomNode.element "div" [] [DomNode.text ['A', 'B', 'C']]) 2
    (DomNode.element "div" [] [DomNode.text ['A', 'B']]) (by decide)

/-- C10: whenever the root survives, the result is a trim of the input:
every retained element keeps its tag name and attributes, child lists only
lose a tail (no node is created, duplicated or reordered), and text
payloads are only shortened to prefixes. -/
theorem trim_result_isTrimOf (root : DomNode) (limit : Nat) (t : DomNode)
    (h : trimElementTextToCharLimit root limit = some t) :
    IsTrimOf t root := by
  unfold trimElementTextToCharLimit at h
  by_cases hl : 0 < limit
  · exact trimNode_isTrimOf limit 0 root hl t h
  · have h0 : limit = 0 := by omega
    subst h0
    rw [trimNode_of_reached 0 0 root (by omega)] at h
    simp at h

/-- Witness for C10: trimming `<div class="x">Hey!</div>`-like tree to
limit 2 yields a tree related to the original by `IsTrimOf` — attributes
intact, trailing text node dropped, first text truncated to a prefix. -/
theorem trim_result_isTrimOf_witness :
    IsTrimOf
      (DomNode.element "div" [("class", "x")] [DomNode.text ['H', 'e']])
      (DomNode.element "div" [("class", "x")]
        [DomNode.text ['H', 'e', 'y'], DomNode.text ['!']]) :=
  trim_result_isTrimOf
    (DomNode.element "div" [("class", "x")]
      [DomNode.text ['H', 'e', 'y'], DomNode.text ['!']]) 2
    (DomNode.element "div" [("class", "x")] [DomNode.text ['H', 'e']]) (by decide)
